import Mathlib

/-!
Verification of the grep.rs search pipeline and result-dispatch logic.

The development shallowly embeds `src/main.rs` and `src/hit_handling.rs`:

* `Tally` models the `BTreeMap<&str, usize>` inside `HitCounter` as a
  key-sorted association list; `tallyInsert` is `BTreeMap::insert`
  (overwriting, keeping keys in ascending order) and `tallyGet` is lookup.
* `start_new_file` / `handle_hit` are `HitCounter`'s two trait methods;
  `handle_hit` returns `none` exactly when the `unwrap` on
  `self.hits.get_mut(file_path)` would panic.
* `formatHit` is the output line built by `HitPrinter::handle_hit`.
* `mainRun` is `main`: argument normalization, the pattern-parse /
  conflicting-option checks, the per-file loop with optional early break,
  and the three aggregate output passes.  External effects are modelled by
  an `Env` (pattern-compile success, the compiled predicate, stdin's lines,
  and each path's lines or an open failure) and by a trace of `Event`s
  (error messages and the lines printed to stdout, plus bookkeeping events
  for source opening, `start_new_file`, predicate evaluations and
  `handle_hit` dispatches).  A run result carries the process exit status:
  every `return` path of `main` exits with status 0, a panic with 101.
  Standard input is modelled as a fixed list of lines.
-/

/-- Observable events of a run: error messages, lines printed to stdout,
and bookkeeping events for source opening, `start_new_file` notifications,
predicate evaluations (source id, 1-based line number) and `handle_hit`
dispatches. -/
inductive Event where
  | errorMsg : String → Event
  | sourceOpened : String → Event
  | beginSource : String → Event
  | predEval : String → Nat → Event
  | observeEvt : String → Nat → String → Event
  | outLine : String → Event
  deriving DecidableEq

/-- Lexicographic comparison of character lists by code point, the order
`Ord` on Rust's `&str` induces (UTF-8 byte order coincides with code-point
order). -/
def listLtB : List Char → List Char → Bool
  | [], [] => false
  | [], _ :: _ => true
  | _ :: _, [] => false
  | c :: cs, d :: ds =>
    if c.toNat < d.toNat then true
    else if d.toNat < c.toNat then false
    else listLtB cs ds

/-- Strict order on strings used by the `BTreeMap<&str, usize>` keys. -/
def strLtB (a b : String) : Bool := listLtB a.data b.data

/-- Model of the `BTreeMap<&str, usize>` in `HitCounter`: an association
list kept in ascending key order. -/
abbrev Tally : Type := List (String × Nat)

/-- Insertion into the tally, as `BTreeMap::insert`: keeps keys sorted
ascending and overwrites the value at an existing key. -/
def tallyInsert : Tally → String → Nat → Tally
  | [], k, v => [(k, v)]
  | (k', v') :: rest, k, v =>
    if strLtB k k' then (k, v) :: (k', v') :: rest
    else if k = k' then (k, v) :: rest
    else (k', v') :: tallyInsert rest k v

/-- Lookup in the tally, as `BTreeMap::get`. -/
def tallyGet : Tally → String → Option Nat
  | [], _ => none
  | (k, v) :: rest, q => if q = k then some v else tallyGet rest q

/-- Translation of `HitCounter::start_new_file`: `self.hits.insert(file_path, 0)`. -/
def start_new_file (t : Tally) (fp : String) : Tally := tallyInsert t fp 0

/-- Translation of `HitCounter::handle_hit`:
`*self.hits.get_mut(file_path).unwrap() += 1`.  The `none` result models the
panic of the `unwrap` when `file_path` has no entry. -/
def handle_hit (t : Tally) (fp : String) : Option Tally :=
  match tallyGet t fp with
  | none => none
  | some v => some (tallyInsert t fp (v + 1))

/-- Translation of the body of `HitPrinter::handle_hit`: the single output
line assembled from the three switches via the `have_content` flag. -/
def formatHit (pf pl ph : Bool) (fp : String) (line : Nat) (hit : String) : String :=
  let s1 := if pf then fp else ""
  let s2 := if pl then s1 ++ (if pf then ":" else "") ++ toString line else s1
  let s3 := if ph then s2 ++ (if pf || pl then ":" else "") ++ hit else s2
  s3

/-- Command-line arguments, as the `Args` struct parsed by clap.
Fields in order: pattern, files, invert_match, force_print_filename,
force_no_print_filename, print_line_number, print_matching_files,
print_non_matching_files, count_hits_per_file. -/
structure Args where
  pattern : String
  files : List String
  invert_match : Bool
  force_print_filename : Bool
  force_no_print_filename : Bool
  print_line_number : Bool
  print_matching_files : Bool
  print_non_matching_files : Bool
  count_hits_per_file : Bool

/-- External environment of a run: whether the pattern string compiles, the
compiled match predicate, the lines read from standard input, and the lines
of each named file (`none` models an open failure).  Standard input is
modelled as a fixed list of lines. -/
structure Env where
  patternOk : Bool
  m : String → Bool
  stdinLines : List String
  readLines : String → Option (List String)

/-- Reader selection in the per-file loop of `main`: `"-"` reads standard
input (never an open failure), any other path is opened as a file. -/
def readLinesF (env : Env) (fp : String) : Option (List String) :=
  if fp = "-" then some env.stdinLines else env.readLines fp

/-- Lines a path yields when its reader opens successfully. -/
def linesOf (env : Env) (fp : String) : List String :=
  (readLinesF env fp).getD []

/-- Normalization at the top of `main`: an empty file list becomes `["-"]`. -/
def normFiles (files : List String) : List String :=
  if files.isEmpty then ["-"] else files

/-- Per-line match decision in `main`'s inner loop:
`pattern.matches_partially(&line)`, negated when `--invert-match` is given. -/
def matchesLine (m : String → Bool) (invert : Bool) (l : String) : Bool :=
  if invert then !(m l) else m l

/-- Computation of `print_files` in `main`: defaults to "more than one
file", then the `(-H, -h)` match overrides it.  The `(true, true)` case is
unreachable from `mainRun` (it errors out first). -/
def printFilesFlag (fH fh : Bool) (nFiles : Nat) : Bool :=
  match fH, fh with
  | false, true => false
  | true, false => true
  | _, _ => decide (1 < nFiles)

/-- Configuration the per-file loop runs with, assembled by `main` before
the loop: the predicate, the invert flag, `skip_file_after_first_match`,
the optional `HitPrinter` (its three switches) and whether a `HitCounter`
is installed. -/
structure RunCfg where
  m : String → Bool
  invert : Bool
  skip : Bool
  printerCfg : Option (Bool × Bool × Bool)
  useCounter : Bool

/-- Translation of `main`'s handler setup: the printer is active exactly in
normal-output mode (with switches `print_files`, `print_line_number`,
`print_hit = true`), the counter exactly when one of `-c`, `-L`, `-l` is
given. -/
def mkCfg (env : Env) (a : Args) : RunCfg :=
  let files := normFiles a.files
  let normal_output := !(a.print_matching_files || a.print_non_matching_files || a.count_hits_per_file)
  ⟨env.m, a.invert_match, a.print_matching_files,
   if normal_output then
     some (printFilesFlag a.force_print_filename a.force_no_print_filename files.length,
           a.print_line_number, true)
   else none,
   a.count_hits_per_file || a.print_non_matching_files || a.print_matching_files⟩

/-- Events the `HitPrinter` emits for one hit: one output line (or nothing
when no printer is installed). -/
def printEvents (cfg : RunCfg) (fp : String) (n : Nat) (l : String) : List Event :=
  match cfg.printerCfg with
  | some (pf, pl, ph) => [Event.outLine (formatHit pf pl ph fp n l)]
  | none => []

/-- Translation of `main`'s inner loop over a reader's lines: evaluate the
(possibly inverted) predicate on each line, dispatch hits to the printer
and the counter, and break after the first hit when
`skip_file_after_first_match` is set.  `none` models the counter's panic. -/
def procLines (cfg : RunCfg) (fp : String) : List String → Nat → Tally → Option (Tally × List Event)
  | [], _, t => some (t, [])
  | l :: ls, n, t =>
    if matchesLine cfg.m cfg.invert l then
      let obs := Event.predEval fp n :: Event.observeEvt fp n l :: printEvents cfg fp n l
      match (if cfg.useCounter then handle_hit t fp else some t) with
      | none => none
      | some t1 =>
        if cfg.skip then some (t1, obs)
        else
          match procLines cfg fp ls (n + 1) t1 with
          | none => none
          | some (t2, evs) => some (t2, obs ++ evs)
    else
      match procLines cfg fp ls (n + 1) t with
      | none => none
      | some (t2, evs) => some (t2, Event.predEval fp n :: evs)

/-- Translation of one iteration of `main`'s per-file loop after the reader
opened: `start_new_file` on every installed handler (a no-op for the
printer, a zero-count insert for the counter), then the line loop. -/
def procSource (cfg : RunCfg) (t : Tally) (fp : String) (ls : List String) : Option (Tally × List Event) :=
  let t1 := if cfg.useCounter then start_new_file t fp else t
  match procLines cfg fp ls 1 t1 with
  | none => none
  | some (t2, evs) => some (t2, Event.sourceOpened fp :: Event.beginSource fp :: evs)

/-- Exit condition of the per-file loop: ran to completion with the final
tally, aborted on an open failure (`return`, exit status 0), or panicked
(exit status 101). -/
inductive RunExit where
  | ok : Tally → RunExit
  | openFail : RunExit
  | panicked : RunExit
  deriving DecidableEq

/-- Translation of `main`'s per-file loop: open each source in the order
supplied (an unopenable path prints `could not open file ...` and returns),
then process its lines. -/
def runFiles (cfg : RunCfg) (env : Env) : List String → Tally → List Event × RunExit
  | [], _tAcc => ([], RunExit.ok _tAcc)
  | fp :: rest, tAcc =>
    match readLinesF env fp with
    | none => ([Event.errorMsg ("could not open file " ++ fp)], RunExit.openFail)
    | some ls =>
      match procSource cfg tAcc fp ls with
      | none => ([], RunExit.panicked)
      | some (t1, evs) =>
        let res := runFiles cfg env rest t1
        (evs ++ res.1, res.2)

/-- Translation of the three aggregate passes at the end of `main`: files
with a positive count under `-l`, files with count zero under `-L`, and
`file:count` lines under `-c`, each enumerating the tally. -/
def aggOut (a : Args) (t : Tally) : List Event :=
  (if a.print_matching_files then
     (t.filter (fun pr => decide (0 < pr.2))).map (fun pr => Event.outLine pr.1)
   else []) ++
  (if a.print_non_matching_files then
     (t.filter (fun pr => decide (pr.2 = 0))).map (fun pr => Event.outLine pr.1)
   else []) ++
  (if a.count_hits_per_file then
     t.map (fun pr => Event.outLine (pr.1 ++ ":" ++ toString pr.2))
   else [])

/-- Tail of `main` once the option checks passed: run the per-file loop and
append the aggregate output.  All `return` paths exit with status 0, a
panic with 101. -/
def mainGo (env : Env) (a : Args) : List Event × Nat :=
  match runFiles (mkCfg env a) env (normFiles a.files) [] with
  | (evs, RunExit.openFail) => (evs, 0)
  | (evs, RunExit.panicked) => (evs, 101)
  | (evs, RunExit.ok t) => (evs ++ aggOut a t, 0)

/-- Translation of `main`: normalize the file list, fail on an invalid
pattern, fail on `-H` with `-h`, fail on two of `-l` / `-L` / `-c`, then
run the pipeline.  The result is the event trace paired with the process
exit status; every early `return` of `main` yields exit status 0. -/
def mainRun (env : Env) (a : Args) : List Event × Nat :=
  if env.patternOk = false then
    ([Event.errorMsg "could not parse pattern"], 0)
  else if a.force_print_filename && a.force_no_print_filename then
    ([Event.errorMsg "conflicting command line options: --with-filename and --no-filename (or equivalents)"], 0)
  else if (a.print_matching_files && a.print_non_matching_files) ||
          (a.print_matching_files && a.count_hits_per_file) ||
          (a.print_non_matching_files && a.count_hits_per_file) then
    ([Event.errorMsg "conflicting command line options: only one of --files-with-match, --files-without-match and --count (or equivalents) may be given"], 0)
  else mainGo env a

/-- Calls the pipeline can make on a `HitCounter`, for reasoning about the
handler in isolation. -/
inductive HCall where
  | start : String → HCall
  | hit : String → HCall
  deriving DecidableEq

/-- Runs a sequence of `HitCounter` calls; `none` models the panic of the
`unwrap` inside `handle_hit`. -/
def runCalls : List HCall → Tally → Option Tally
  | [], t => some t
  | HCall.start p :: cs, t => runCalls cs (start_new_file t p)
  | HCall.hit p :: cs, t =>
    match handle_hit t p with
    | none => none
    | some t1 => runCalls cs t1

/-- Discipline the pipeline establishes: every `handle_hit` on a path is
preceded by a `start_new_file` for that path (the first argument collects
the paths already begun). -/
def startedOK : List String → List HCall → Bool
  | _, [] => true
  | st, HCall.start p :: cs => startedOK (p :: st) cs
  | st, HCall.hit p :: cs => decide (p ∈ st) && startedOK st cs

/-- Number of lines of a source satisfying the (possibly inverted) match
predicate. -/
def countHits (m : String → Bool) (invert : Bool) (ls : List String) : Nat :=
  (ls.filter (matchesLine m invert)).length

/-- Index of the first line satisfying a predicate. -/
def firstHitIdx (p : String → Bool) : List String → Option Nat
  | [] => none
  | l :: ls => if p l then some 0 else (firstHitIdx p ls).map (· + 1)

/-- Number of lines examined when scanning stops right after the first
satisfying line: first index + 1 if one exists, else the whole length. -/
def earlyLen (p : String → Bool) (ls : List String) : Nat :=
  match firstHitIdx p ls with
  | some i => i + 1
  | none => ls.length

/-- Line numbers on which the match predicate was evaluated for a given
source id, read off a trace. -/
def predEvalNums (fp : String) : List Event → List Nat
  | [] => []
  | Event.predEval q n :: evs => if q = fp then n :: predEvalNums fp evs else predEvalNums fp evs
  | _ :: evs => predEvalNums fp evs

/-- Fields present in a printer line, joined by a colon with no separator
before the first present field (the format §4.1 of the spec describes). -/
def joinFields : List String → String
  | [] => ""
  | [x] => x
  | x :: xs => x ++ ":" ++ joinFields xs

/-! Order lemmas for the key comparison. -/

theorem listLtB_irrefl : ∀ l : List Char, listLtB l l = false
  | [] => rfl
  | c :: cs => by simp [listLtB, listLtB_irrefl cs]

theorem listLtB_trans : ∀ {a b c : List Char},
    listLtB a b = true → listLtB b c = true → listLtB a c = true
  | _, [], [], _, h2 => by simp [listLtB] at h2
  | [], _ :: _, [], _, h2 => by simp [listLtB] at h2
  | _ :: _, _ :: _, [], _, h2 => by simp [listLtB] at h2
  | [], [], _ :: _, h1, _ => by simp [listLtB] at h1
  | [], _ :: _, _ :: _, _, _ => rfl
  | x :: xs, [], _ :: _, h1, _ => by simp [listLtB] at h1
  | x :: xs, y :: ys, z :: zs, h1, h2 => by
    simp only [listLtB] at h1 h2 ⊢
    by_cases hxy : x.toNat < y.toNat
    · by_cases hyz : y.toNat < z.toNat
      · have hxz : x.toNat < z.toNat := by omega
        simp [hxz]
      · simp only [hyz, if_false] at h2
        by_cases hzy : z.toNat < y.toNat
        · simp [hzy] at h2
        · have hxz : x.toNat < z.toNat := by omega
          simp [hxz]
    · simp only [hxy, if_false] at h1
      by_cases hyx : y.toNat < x.toNat
      · simp [hyx] at h1
      · simp only [hyx, if_false] at h1
        by_cases hyz : y.toNat < z.toNat
        · have hxz : x.toNat < z.toNat := by omega
          simp [hxz]
        · simp only [hyz, if_false] at h2
          by_cases hzy : z.toNat < y.toNat
          · simp [hzy] at h2
          · simp only [hzy, if_false] at h2
            have hxz : ¬ x.toNat < z.toNat := by omega
            have hzx : ¬ z.toNat < x.toNat := by omega
            simp [hxz, hzx]
            exact listLtB_trans h1 h2

theorem listLtB_conn : ∀ {a b : List Char},
    listLtB a b = false → listLtB b a = false → a = b
  | [], [], _, _ => rfl
  | [], _ :: _, h1, _ => by simp [listLtB] at h1
  | _ :: _, [], _, h2 => by simp [listLtB] at h2
  | x :: xs, y :: ys, h1, h2 => by
    simp only [listLtB] at h1 h2
    by_cases hxy : x.toNat < y.toNat
    · simp [hxy] at h1
    · by_cases hyx : y.toNat < x.toNat
      · simp [hxy, hyx] at h1 h2
      · simp only [hxy, hyx, if_false] at h1 h2
        have hv : x.toNat = y.toNat := by omega
        have hx : x = y := Char.ext (UInt32.toNat.inj hv)
        have htail : xs = ys := listLtB_conn h1 h2
        rw [hx, htail]

theorem strLtB_irrefl (a : String) : strLtB a a = false := listLtB_irrefl a.data

theorem strLtB_trans {a b c : String} (h1 : strLtB a b = true) (h2 : strLtB b c = true) :
    strLtB a c = true := listLtB_trans h1 h2

theorem strLtB_conn {a b : String} (h1 : strLtB a b = false) (h2 : strLtB b a = false) :
    a = b := String.ext (listLtB_conn h1 h2)

theorem strLtB_asymm {a b : String} (h : strLtB a b = true) : strLtB b a = false := by
  cases hba : strLtB b a
  · rfl
  · have := strLtB_trans h hba
    rw [strLtB_irrefl] at this
    cases this

theorem strLtB_ne {a b : String} (h : strLtB a b = true) : a ≠ b := by
  intro he
  rw [he, strLtB_irrefl] at h
  cases h

/-! Lemmas about tally insertion and lookup. -/

theorem tallyGet_insert_self : ∀ (t : Tally) (k : String) (v : Nat),
    tallyGet (tallyInsert t k v) k = some v
  | [], k, v => by simp [tallyInsert, tallyGet]
  | (k', v') :: rest, k, v => by
    by_cases hlt : strLtB k k'
    · simp [tallyInsert, hlt, tallyGet]
    · by_cases he : k = k'
      · subst he
        simp [tallyInsert, strLtB_irrefl, tallyGet]
      · simp only [tallyInsert, hlt, he, if_false, Bool.false_eq_true]
        simp only [tallyGet, he, if_false]
        exact tallyGet_insert_self rest k v

theorem tallyGet_insert_ne : ∀ (t : Tally) (k q : String) (v : Nat), q ≠ k →
    tallyGet (tallyInsert t k v) q = tallyGet t q
  | [], k, q, v, hne => by simp [tallyInsert, tallyGet, hne]
  | (k', v') :: rest, k, q, v, hne => by
    by_cases hlt : strLtB k k'
    · simp [tallyInsert, hlt, tallyGet, hne]
    · by_cases he : k = k'
      · subst he
        simp [tallyInsert, strLtB_irrefl, tallyGet, hne]
      · simp only [tallyInsert, hlt, he, if_false, Bool.false_eq_true]
        by_cases hq : q = k'
        · simp [tallyGet, hq]
        · simp only [tallyGet, hq, if_false]
          exact tallyGet_insert_ne rest k q v hne

/-- Sortedness predicate on tally entries: strictly ascending keys. -/
def tallySorted (t : Tally) : Prop :=
  List.Pairwise (fun x y => strLtB x.1 y.1 = true) t

theorem mem_tallyInsert : ∀ {t : Tally} {k : String} {v : Nat} {x : String × Nat},
    x ∈ tallyInsert t k v → x = (k, v) ∨ x ∈ t
  | [], k, v, x, hx => by simpa [tallyInsert] using hx
  | (k', v') :: rest, k, v, x, hx => by
    by_cases hlt : strLtB k k'
    · simp only [tallyInsert, hlt, if_true, List.mem_cons] at hx
      rcases hx with h | h | h
      · exact Or.inl h
      · exact Or.inr (by simp [List.mem_cons, h])
      · exact Or.inr (by simp [List.mem_cons, h])
    · by_cases he : k = k'
      · subst he
        simp only [tallyInsert, strLtB_irrefl, Bool.false_eq_true, if_false,
          eq_self_iff_true, if_true, List.mem_cons] at hx
        rcases hx with h | h
        · exact Or.inl h
        · exact Or.inr (List.mem_cons_of_mem _ h)
      · simp only [tallyInsert, hlt, he, Bool.false_eq_true, if_false, List.mem_cons] at hx
        rcases hx with h | h
        · exact Or.inr (by simp [List.mem_cons, h])
        · rcases mem_tallyInsert h with h' | h'
          · exact Or.inl h'
          · exact Or.inr (List.mem_cons_of_mem _ h')

theorem tallySorted_insert : ∀ {t : Tally} (k : String) (v : Nat),
    tallySorted t → tallySorted (tallyInsert t k v)
  | [], k, v, _ => by simp [tallyInsert, tallySorted]
  | (k', v') :: rest, k, v, hs => by
    rcases (List.pairwise_cons.mp hs) with ⟨hk', hrest⟩
    by_cases hlt : strLtB k k'
    · simp only [tallyInsert, hlt, if_true]
      refine List.pairwise_cons.mpr ⟨?_, hs⟩
      intro y hy
      rcases List.mem_cons.mp hy with h | h
      · rw [h]
        exact hlt
      · exact strLtB_trans hlt (hk' y h)
    · by_cases he : k = k'
      · subst he
        simp only [tallyInsert, strLtB_irrefl, Bool.false_eq_true, if_false,
          eq_self_iff_true, if_true]
        exact List.pairwise_cons.mpr ⟨hk', hrest⟩
      · simp only [tallyInsert, hlt, he, Bool.false_eq_true, if_false]
        refine List.pairwise_cons.mpr ⟨?_, tallySorted_insert k v hrest⟩
        intro y hy
        rcases mem_tallyInsert hy with h | h
        · have hk'k : strLtB k' k = true := by
            cases hkk : strLtB k' k
            · exact absurd (strLtB_conn (by simpa using hlt) hkk) he
            · rfl
          rw [h]
          exact hk'k
        · exact hk' y h

theorem tallyGet_mem : ∀ {t : Tally} {q : String} {v : Nat},
    tallyGet t q = some v → (q, v) ∈ t
  | [], q, v, h => by simp [tallyGet] at h
  | (k, w) :: rest, q, v, h => by
    by_cases he : q = k
    · subst he
      simp only [tallyGet, eq_self_iff_true, if_true, Option.some.injEq] at h
      subst h
      exact List.mem_cons_self _ _
    · simp only [tallyGet, he, if_false] at h
      exact List.mem_cons_of_mem _ (tallyGet_mem h)

theorem mem_tallyGet_of_sorted : ∀ {t : Tally} {q : String} {v : Nat},
    tallySorted t → (q, v) ∈ t → tallyGet t q = some v
  | [], q, v, _, hm => by simp at hm
  | (k, w) :: rest, q, v, hs, hm => by
    rcases (List.pairwise_cons.mp hs) with ⟨hk, hrest⟩
    rcases List.mem_cons.mp hm with h | h
    · obtain ⟨h1, h2⟩ := Prod.mk.injEq .. ▸ h
      subst h1
      subst h2
      simp [tallyGet]
    · have hne : q ≠ k := by
        intro he
        have := hk (q, v) h
        subst he
        simp [strLtB_irrefl] at this
      simp only [tallyGet, hne, if_false]
      exact mem_tallyGet_of_sorted hrest h

/-! Behaviour of the per-source line loop. -/

/-- Count a source contributes to the tally: with early stop at most one
(one iff some line matches), otherwise the number of matching lines. -/
def expectedCount (cfg : RunCfg) (ls : List String) : Nat :=
  if cfg.skip then (if ls.any (matchesLine cfg.m cfg.invert) then 1 else 0)
  else countHits cfg.m cfg.invert ls

theorem earlyLen_cons (p : String → Bool) (l : String) (ls : List String) :
    earlyLen p (l :: ls) = if p l then 1 else earlyLen p ls + 1 := by
  by_cases h : p l
  · simp [earlyLen, firstHitIdx, h]
  · simp only [earlyLen, firstHitIdx, h, Bool.false_eq_true, if_false]
    cases hf : firstHitIdx p ls <;> simp [hf]

theorem handle_hit_sorted {t t1 : Tally} {fp : String}
    (h : handle_hit t fp = some t1) (hs : tallySorted t) : tallySorted t1 := by
  unfold handle_hit at h
  cases hg : tallyGet t fp with
  | none => rw [hg] at h; cases h
  | some v =>
    rw [hg] at h
    cases h
    exact tallySorted_insert _ _ hs

theorem procLines_noCounter (cfg : RunCfg) (fp : String) (hc : cfg.useCounter = false) :
    ∀ (ls : List String) (n : Nat) (t : Tally),
    ∃ evs, procLines cfg fp ls n t = some (t, evs)
  | [], n, t => ⟨[], rfl⟩
  | l :: ls, n, t => by
    by_cases hm : matchesLine cfg.m cfg.invert l
    · by_cases hs : cfg.skip
      · exact ⟨Event.predEval fp n :: Event.observeEvt fp n l :: printEvents cfg fp n l,
          by simp [procLines, hm, hc, hs]⟩
      · obtain ⟨evs, hrun⟩ := procLines_noCounter cfg fp hc ls (n + 1) t
        exact ⟨(Event.predEval fp n :: Event.observeEvt fp n l :: printEvents cfg fp n l) ++ evs,
          by simp [procLines, hm, hc, hs, hrun]⟩
    · obtain ⟨evs, hrun⟩ := procLines_noCounter cfg fp hc ls (n + 1) t
      exact ⟨Event.predEval fp n :: evs, by simp [procLines, hm, hrun]⟩

theorem procLines_counter (cfg : RunCfg) (fp : String) (hc : cfg.useCounter = true) :
    ∀ (ls : List String) (n : Nat) (t : Tally) (v : Nat), tallyGet t fp = some v →
    ∃ t' evs, procLines cfg fp ls n t = some (t', evs) ∧
      tallyGet t' fp = some (if cfg.skip then (if ls.any (matchesLine cfg.m cfg.invert) then v + 1 else v)
                             else v + countHits cfg.m cfg.invert ls) ∧
      (∀ q, q ≠ fp → tallyGet t' q = tallyGet t q)
  | [], n, t, v, hv => ⟨t, [], rfl, by simp [countHits, hv], fun q _ => rfl⟩
  | l :: ls, n, t, v, hv => by
    by_cases hm : matchesLine cfg.m cfg.invert l
    · have hh : handle_hit t fp = some (tallyInsert t fp (v + 1)) := by
        simp [handle_hit, hv]
      by_cases hs : cfg.skip
      · refine ⟨tallyInsert t fp (v + 1),
          Event.predEval fp n :: Event.observeEvt fp n l :: printEvents cfg fp n l, ?_, ?_, ?_⟩
        · simp [procLines, hm, hc, hh, hs]
        · simp [hs, List.any_cons, hm, tallyGet_insert_self]
        · intro q hq
          exact tallyGet_insert_ne _ _ _ _ hq
      · obtain ⟨t', evs, hrun, hval, hframe⟩ :=
          procLines_counter cfg fp hc ls (n + 1) (tallyInsert t fp (v + 1)) (v + 1)
            (tallyGet_insert_self _ _ _)
        refine ⟨t', (Event.predEval fp n :: Event.observeEvt fp n l :: printEvents cfg fp n l) ++ evs,
          ?_, ?_, ?_⟩
        · simp [procLines, hm, hc, hh, hs, hrun]
        · rw [hval]
          simp only [hs, Bool.false_eq_true, if_false]
          have : countHits cfg.m cfg.invert (l :: ls) = countHits cfg.m cfg.invert ls + 1 := by
            simp [countHits, List.filter_cons, hm]
          rw [this]
          congr 1
          omega
        · intro q hq
          rw [hframe q hq]
          exact tallyGet_insert_ne _ _ _ _ hq
    · obtain ⟨t', evs, hrun, hval, hframe⟩ := procLines_counter cfg fp hc ls (n + 1) t v hv
      refine ⟨t', Event.predEval fp n :: evs, ?_, ?_, ?_⟩
      · simp [procLines, hm, hrun]
      · rw [hval]
        have hcnt : countHits cfg.m cfg.invert (l :: ls) = countHits cfg.m cfg.invert ls := by
          simp [countHits, List.filter_cons, hm]
        have hany : (l :: ls).any (matchesLine cfg.m cfg.invert) = ls.any (matchesLine cfg.m cfg.invert) := by
          simp [List.any_cons, hm]
        rw [hcnt, hany]
      · exact hframe

theorem procLines_sorted (cfg : RunCfg) (fp : String) :
    ∀ {ls : List String} {n : Nat} {t t' : Tally} {evs : List Event},
    procLines cfg fp ls n t = some (t', evs) → tallySorted t → tallySorted t'
  | [], n, t, t', evs, h, hs => by
    simp only [procLines, Option.some.injEq] at h
    injection h with h1 h2
    subst h1
    exact hs
  | l :: ls, n, t, t', evs, h, hs => by
    by_cases hm : matchesLine cfg.m cfg.invert l
    · simp only [procLines, hm, if_true] at h
      cases hht : (if cfg.useCounter then handle_hit t fp else some t) with
      | none => rw [hht] at h; cases h
      | some t1 =>
        have hs1 : tallySorted t1 := by
          by_cases hc : cfg.useCounter
          · simp only [hc, if_true] at hht
            exact handle_hit_sorted hht hs
          · simp only [hc, Bool.false_eq_true, if_false, Option.some.injEq] at hht
            rw [← hht]
            exact hs
        rw [hht] at h
        by_cases hsk : cfg.skip
        · simp only [hsk, if_true, Option.some.injEq] at h
          injection h with h1 h2
          subst h1
          exact hs1
        · simp only [hsk, Bool.false_eq_true, if_false] at h
          cases hrec : procLines cfg fp ls (n + 1) t1 with
          | none => rw [hrec] at h; cases h
          | some res =>
            rw [hrec] at h
            obtain ⟨t2, evs2⟩ := res
            simp only [Option.some.injEq] at h
            injection h with h1 h2
            subst h1
            exact procLines_sorted cfg fp hrec hs1
    · simp only [procLines, hm, Bool.false_eq_true, if_false] at h
      cases hrec : procLines cfg fp ls (n + 1) t with
      | none => rw [hrec] at h; cases h
      | some res =>
        rw [hrec] at h
        obtain ⟨t2, evs2⟩ := res
        simp only [Option.some.injEq] at h
        injection h with h1 h2
        subst h1
        exact procLines_sorted cfg fp hrec hs

theorem range'_succ1 (n k : Nat) : List.range' n (k + 1) = n :: List.range' (n + 1) k := rfl

theorem predEvalNums_append (fp : String) : ∀ (a b : List Event),
    predEvalNums fp (a ++ b) = predEvalNums fp a ++ predEvalNums fp b
  | [], _ => rfl
  | Event.predEval q n :: a, b => by
    by_cases hq : q = fp <;> simp [predEvalNums, hq, predEvalNums_append fp a b]
  | Event.errorMsg s :: a, b => by simp [predEvalNums, predEvalNums_append fp a b]
  | Event.sourceOpened s :: a, b => by simp [predEvalNums, predEvalNums_append fp a b]
  | Event.beginSource s :: a, b => by simp [predEvalNums, predEvalNums_append fp a b]
  | Event.observeEvt s n l :: a, b => by simp [predEvalNums, predEvalNums_append fp a b]
  | Event.outLine s :: a, b => by simp [predEvalNums, predEvalNums_append fp a b]

theorem predEvalNums_printEvents (cfg : RunCfg) (fp q : String) (n : Nat) (l : String) :
    predEvalNums q (printEvents cfg fp n l) = [] := by
  cases h : cfg.printerCfg with
  | none => simp [printEvents, h, predEvalNums]
  | some pc =>
    obtain ⟨pf, pl, ph⟩ := pc
    simp [printEvents, h, predEvalNums]

theorem outLine_printEvents_none (cfg : RunCfg) (fp : String) (n : Nat) (l : String)
    (hp : cfg.printerCfg = none) : printEvents cfg fp n l = [] := by
  simp [printEvents, hp]

theorem procLines_events (cfg : RunCfg) (fp : String) :
    ∀ {ls : List String} {n : Nat} {t t' : Tally} {evs : List Event},
    procLines cfg fp ls n t = some (t', evs) →
    predEvalNums fp evs =
      List.range' n (if cfg.skip then earlyLen (matchesLine cfg.m cfg.invert) ls else ls.length) ∧
    (∀ q, q ≠ fp → predEvalNums q evs = []) ∧
    (cfg.printerCfg = none → ∀ s, Event.outLine s ∉ evs)
  | [], n, t, t', evs, h => by
    simp only [procLines, Option.some.injEq] at h
    injection h with h1 h2
    subst h2
    refine ⟨by simp [predEvalNums, earlyLen, firstHitIdx], fun q _ => by simp [predEvalNums], ?_⟩
    intro _ s
    simp
  | l :: ls, n, t, t', evs, h => by
    by_cases hm : matchesLine cfg.m cfg.invert l
    · simp only [procLines, hm, if_true] at h
      cases hht : (if cfg.useCounter then handle_hit t fp else some t) with
      | none => rw [hht] at h; cases h
      | some t1 =>
        rw [hht] at h
        by_cases hsk : cfg.skip
        · simp only [hsk, if_true, Option.some.injEq] at h
          injection h with h1 h2
          subst h2
          refine ⟨?_, ?_, ?_⟩
          · simp [predEvalNums, earlyLen_cons, hm, hsk, predEvalNums_printEvents cfg fp fp]
          · intro q hq
            have hpe := predEvalNums_printEvents cfg fp q n l
            have hfq : ¬ fp = q := fun he => hq he.symm
            simp [predEvalNums, hfq, hpe]
          · intro hp s
            rw [outLine_printEvents_none cfg fp n l hp]
            simp
        · simp only [hsk, Bool.false_eq_true, if_false] at h
          cases hrec : procLines cfg fp ls (n + 1) t1 with
          | none => rw [hrec] at h; cases h
          | some res =>
            rw [hrec] at h
            obtain ⟨t2, evs2⟩ := res
            simp only [Option.some.injEq] at h
            injection h with h1 h2
            subst h2
            obtain ⟨he1, he2, he3⟩ := procLines_events cfg fp hrec
            refine ⟨?_, ?_, ?_⟩
            · simp only [hsk, Bool.false_eq_true, if_false] at he1 ⊢
              rw [List.cons_append, List.cons_append]
              simp only [predEvalNums, eq_self_iff_true, if_true]
              rw [predEvalNums_append, predEvalNums_printEvents cfg fp fp, he1]
              simp [range'_succ1]
            · intro q hq
              have hpe := predEvalNums_printEvents cfg fp q n l
              have hfq : ¬ fp = q := fun he => hq he.symm
              rw [List.cons_append, List.cons_append]
              simp only [predEvalNums, hfq, if_false]
              rw [predEvalNums_append, hpe, he2 q hq]
              rfl
            · intro hp s
              rw [List.cons_append, List.cons_append,
                outLine_printEvents_none cfg fp n l hp]
              have := he3 hp s
              simp [this]
    · simp only [procLines, hm, Bool.false_eq_true, if_false] at h
      cases hrec : procLines cfg fp ls (n + 1) t with
      | none => rw [hrec] at h; cases h
      | some res =>
        rw [hrec] at h
        obtain ⟨t2, evs2⟩ := res
        simp only [Option.some.injEq] at h
        injection h with h1 h2
        subst h2
        obtain ⟨he1, he2, he3⟩ := procLines_events cfg fp hrec
        refine ⟨?_, ?_, ?_⟩
        · by_cases hsk : cfg.skip
          · simp only [hsk, if_true] at he1 ⊢
            rw [earlyLen_cons]
            simp only [hm, Bool.false_eq_true, if_false]
            simp only [predEvalNums, eq_self_iff_true, if_true]
            rw [he1]
            simp [range'_succ1]
          · simp only [hsk, Bool.false_eq_true, if_false] at he1 ⊢
            simp only [predEvalNums, eq_self_iff_true, if_true]
            rw [he1]
            simp [range'_succ1]
        · intro q hq
          have hfq : ¬ fp = q := fun he => hq he.symm
          simp only [predEvalNums, hfq, if_false]
          exact he2 q hq
        · intro hp s
          have := he3 hp s
          simp [this]

/-! Behaviour of per-source processing. -/

theorem procSource_counter (cfg : RunCfg) (hc : cfg.useCounter = true)
    (t : Tally) (fp : String) (ls : List String) :
    ∃ t' evs, procSource cfg t fp ls = some (t', evs) ∧
      tallyGet t' fp = some (expectedCount cfg ls) ∧
      (∀ q, q ≠ fp → tallyGet t' q = tallyGet t q) := by
  obtain ⟨t', evs, hrun, hval, hframe⟩ :=
    procLines_counter cfg fp hc ls 1 (start_new_file t fp) 0 (tallyGet_insert_self _ _ _)
  refine ⟨t', Event.sourceOpened fp :: Event.beginSource fp :: evs, ?_, ?_, ?_⟩
  · simp [procSource, hc, hrun]
  · rw [hval]
    simp [expectedCount]
  · intro q hq
    rw [hframe q hq]
    exact tallyGet_insert_ne _ _ _ _ hq

theorem procSource_noCounter (cfg : RunCfg) (hc : cfg.useCounter = false)
    (t : Tally) (fp : String) (ls : List String) :
    ∃ evs, procSource cfg t fp ls = some (t, evs) := by
  obtain ⟨evs, hrun⟩ := procLines_noCounter cfg fp hc ls 1 t
  exact ⟨Event.sourceOpened fp :: Event.beginSource fp :: evs, by simp [procSource, hc, hrun]⟩

theorem procSource_sorted (cfg : RunCfg) {t : Tally} {fp : String} {ls : List String}
    {t' : Tally} {evs : List Event}
    (h : procSource cfg t fp ls = some (t', evs)) (hs : tallySorted t) : tallySorted t' := by
  have hs1 : tallySorted (if cfg.useCounter then start_new_file t fp else t) := by
    by_cases hc : cfg.useCounter
    · simp only [hc, if_true]
      exact tallySorted_insert _ _ hs
    · simp only [hc, Bool.false_eq_true, if_false]
      exact hs
  simp only [procSource] at h
  cases hpl : procLines cfg fp ls 1 (if cfg.useCounter then start_new_file t fp else t) with
  | none => rw [hpl] at h; cases h
  | some res =>
    rw [hpl] at h
    obtain ⟨t2, evs2⟩ := res
    simp only [Option.some.injEq] at h
    injection h with h1 h2
    subst h1
    exact procLines_sorted cfg fp hpl hs1

theorem procSource_events (cfg : RunCfg) {t : Tally} {fp : String} {ls : List String}
    {t' : Tally} {evs : List Event}
    (h : procSource cfg t fp ls = some (t', evs)) :
    predEvalNums fp evs =
      List.range' 1 (if cfg.skip then earlyLen (matchesLine cfg.m cfg.invert) ls else ls.length) ∧
    (∀ q, q ≠ fp → predEvalNums q evs = []) ∧
    (cfg.printerCfg = none → ∀ s, Event.outLine s ∉ evs) := by
  simp only [procSource] at h
  cases hpl : procLines cfg fp ls 1 (if cfg.useCounter then start_new_file t fp else t) with
  | none => rw [hpl] at h; cases h
  | some res =>
    rw [hpl] at h
    obtain ⟨t2, evs2⟩ := res
    simp only [Option.some.injEq] at h
    injection h with h1 h2
    subst h2
    obtain ⟨he1, he2, he3⟩ := procLines_events cfg fp hpl
    refine ⟨?_, ?_, ?_⟩
    · simp [predEvalNums, he1]
    · intro q hq
      simp [predEvalNums, he2 q hq]
    · intro hp s
      have := he3 hp s
      simp [this]

/-! Behaviour of the whole per-file loop. -/

theorem runFiles_counter (cfg : RunCfg) (env : Env) (hc : cfg.useCounter = true) :
    ∀ (files : List String) (t0 : Tally),
    (∀ fp ∈ files, (readLinesF env fp).isSome = true) →
    ∃ evs t, runFiles cfg env files t0 = (evs, RunExit.ok t) ∧
      (∀ fp ∈ files, tallyGet t fp = some (expectedCount cfg (linesOf env fp))) ∧
      (∀ q, q ∉ files → tallyGet t q = tallyGet t0 q)
  | [], t0, _ => ⟨[], t0, rfl, by simp, fun q _ => rfl⟩
  | fp :: rest, t0, hopen => by
    have hfp := hopen fp (List.mem_cons_self _ _)
    cases hrl : readLinesF env fp with
    | none => rw [hrl] at hfp; cases hfp
    | some ls =>
      have hlines : linesOf env fp = ls := by simp [linesOf, hrl]
      obtain ⟨t1, evs1, hps, hval1, hframe1⟩ := procSource_counter cfg hc t0 fp ls
      obtain ⟨evs2, t2, hrun, hval2, hframe2⟩ :=
        runFiles_counter cfg env hc rest t1 (fun q hq => hopen q (List.mem_cons_of_mem _ hq))
      refine ⟨evs1 ++ evs2, t2, ?_, ?_, ?_⟩
      · simp [runFiles, hrl, hps, hrun]
      · intro p hp
        rcases List.mem_cons.mp hp with he | hmem
        · subst he
          by_cases hin : p ∈ rest
          · exact hval2 p hin
          · rw [hframe2 p hin, hlines]
            exact hval1
        · exact hval2 p hmem
      · intro q hq
        have hq1 : q ∉ rest := fun hh => hq (List.mem_cons_of_mem _ hh)
        have hq2 : q ≠ fp := fun hh => hq (hh ▸ List.mem_cons_self _ _)
        rw [hframe2 q hq1, hframe1 q hq2]

theorem runFiles_ok (cfg : RunCfg) (env : Env) :
    ∀ (files : List String) (t0 : Tally),
    (∀ fp ∈ files, (readLinesF env fp).isSome = true) →
    ∃ evs t, runFiles cfg env files t0 = (evs, RunExit.ok t)
  | [], t0, _ => ⟨[], t0, rfl⟩
  | fp :: rest, t0, hopen => by
    have hfp := hopen fp (List.mem_cons_self _ _)
    cases hrl : readLinesF env fp with
    | none => rw [hrl] at hfp; cases hfp
    | some ls =>
      by_cases hc : cfg.useCounter
      · obtain ⟨t1, evs1, hps, _, _⟩ := procSource_counter cfg hc t0 fp ls
        obtain ⟨evs2, t2, hrun⟩ :=
          runFiles_ok cfg env rest t1 (fun q hq => hopen q (List.mem_cons_of_mem _ hq))
        exact ⟨evs1 ++ evs2, t2, by simp [runFiles, hrl, hps, hrun]⟩
      · have hc2 : cfg.useCounter = false := by simpa using hc
        obtain ⟨evs1, hps⟩ := procSource_noCounter cfg hc2 t0 fp ls
        obtain ⟨evs2, t2, hrun⟩ :=
          runFiles_ok cfg env rest t0 (fun q hq => hopen q (List.mem_cons_of_mem _ hq))
        exact ⟨evs1 ++ evs2, t2, by simp [runFiles, hrl, hps, hrun]⟩

theorem runFiles_events (cfg : RunCfg) (env : Env) :
    ∀ {files : List String} {t0 : Tally} {evs : List Event} {ex : RunExit},
    runFiles cfg env files t0 = (evs, ex) →
    (∀ fp, fp ∉ files → predEvalNums fp evs = []) ∧
    (cfg.printerCfg = none → ∀ s, Event.outLine s ∉ evs)
  | [], t0, evs, ex, h => by
    simp only [runFiles] at h
    injection h with h1 h2
    subst h1
    exact ⟨fun fp _ => rfl, fun _ s => by simp⟩
  | fp :: rest, t0, evs, ex, h => by
    simp only [runFiles] at h
    cases hrl : readLinesF env fp with
    | none =>
      rw [hrl] at h
      injection h with h1 h2
      subst h1
      refine ⟨fun q _ => by simp [predEvalNums], fun _ s => by simp⟩
    | some ls =>
      rw [hrl] at h
      simp only at h
      cases hps : procSource cfg t0 fp ls with
      | none =>
        rw [hps] at h
        injection h with h1 h2
        subst h1
        exact ⟨fun q _ => rfl, fun _ s => by simp⟩
      | some res =>
        rw [hps] at h
        obtain ⟨t1, evs1⟩ := res
        simp only at h
        cases hrun : runFiles cfg env rest t1 with
        | mk evs2 ex2 =>
          rw [hrun] at h
          simp only at h
          injection h with h1 h2
          subst h1
          obtain ⟨hf, ho⟩ := runFiles_events cfg env hrun
          obtain ⟨_, hE2, hE3⟩ := procSource_events cfg hps
          refine ⟨?_, ?_⟩
          · intro q hq
            have hq1 : q ∉ rest := fun hh => hq (List.mem_cons_of_mem _ hh)
            have hq2 : q ≠ fp := fun hh => hq (hh ▸ List.mem_cons_self _ _)
            rw [predEvalNums_append, hE2 q hq2, hf q hq1]
            rfl
          · intro hp s
            have h1 := hE3 hp s
            have h2 := ho hp s
            simp [List.mem_append, h1, h2]

theorem runFiles_predEvals (cfg : RunCfg) (env : Env) :
    ∀ {files : List String} {t0 : Tally} {evs : List Event} {ex : RunExit},
    runFiles cfg env files t0 = (evs, ex) →
    (∀ fp ∈ files, (readLinesF env fp).isSome = true) →
    files.Nodup → ∀ fp ∈ files,
    predEvalNums fp evs =
      List.range' 1 (if cfg.skip then earlyLen (matchesLine cfg.m cfg.invert) (linesOf env fp)
                     else (linesOf env fp).length)
  | [], t0, evs, ex, h, _, _ => by simp
  | f :: rest, t0, evs, ex, h, hopen, hnd => by
    intro fp hfp
    have hof := hopen f (List.mem_cons_self _ _)
    cases hrl : readLinesF env f with
    | none => rw [hrl] at hof; cases hof
    | some ls =>
      have hlines : linesOf env f = ls := by simp [linesOf, hrl]
      simp only [runFiles] at h
      rw [hrl] at h
      simp only at h
      cases hps : procSource cfg t0 f ls with
      | none =>
        exfalso
        by_cases hc : cfg.useCounter
        · obtain ⟨t1, evs1, hps2, _, _⟩ := procSource_counter cfg hc t0 f ls
          rw [hps2] at hps
          cases hps
        · have hc2 : cfg.useCounter = false := by simpa using hc
          obtain ⟨evs1, hps2⟩ := procSource_noCounter cfg hc2 t0 f ls
          rw [hps2] at hps
          cases hps
      | some res =>
        rw [hps] at h
        obtain ⟨t1, evs1⟩ := res
        simp only at h
        cases hrun : runFiles cfg env rest t1 with
        | mk evs2 ex2 =>
          rw [hrun] at h
          simp only at h
          injection h with h1 h2
          subst h1
          obtain ⟨hE1, hE2, _⟩ := procSource_events cfg hps
          rcases List.nodup_cons.mp hnd with ⟨hfr, hndr⟩
          rw [predEvalNums_append]
          rcases List.mem_cons.mp hfp with he | hmem
          · subst he
            have : predEvalNums fp evs2 = [] :=
              (runFiles_events cfg env hrun).1 fp hfr
            rw [this, hE1, hlines, List.append_nil]
          · have hne : fp ≠ f := fun hh => hfr (hh ▸ hmem)
            rw [hE2 fp hne]
            have := runFiles_predEvals cfg env hrun
              (fun q hq => hopen q (List.mem_cons_of_mem _ hq)) hndr fp hmem
            rw [this]
            rfl

theorem runFiles_sorted (cfg : RunCfg) (env : Env) :
    ∀ {files : List String} {t0 : Tally} {evs : List Event} {t : Tally},
    runFiles cfg env files t0 = (evs, RunExit.ok t) → tallySorted t0 → tallySorted t
  | [], t0, evs, t, h, hs => by
    simp only [runFiles] at h
    injection h with h1 h2
    injection h2 with h3
    subst h3
    exact hs
  | fp :: rest, t0, evs, t, h, hs => by
    simp only [runFiles] at h
    cases hrl : readLinesF env fp with
    | none =>
      rw [hrl] at h
      injection h with h1 h2
      cases h2
    | some ls =>
      rw [hrl] at h
      simp only at h
      cases hps : procSource cfg t0 fp ls with
      | none =>
        rw [hps] at h
        injection h with h1 h2
        cases h2
      | some res =>
        rw [hps] at h
        obtain ⟨t1, evs1⟩ := res
        simp only at h
        cases hrun : runFiles cfg env rest t1 with
        | mk evs2 ex2 =>
          rw [hrun] at h
          simp only at h
          injection h with h1 h2
          subst h2
          exact runFiles_sorted cfg env hrun (procSource_sorted cfg hps hs)

/-! Reduction of `mainRun` on the non-error path, and helpers about
aggregate output. -/

theorem mainRun_go (env : Env) (a : Args)
    (hpat : env.patternOk = true)
    (hHh : (a.force_print_filename && a.force_no_print_filename) = false)
    (hmode : ((a.print_matching_files && a.print_non_matching_files) ||
              (a.print_matching_files && a.count_hits_per_file) ||
              (a.print_non_matching_files && a.count_hits_per_file)) = false) :
    mainRun env a = mainGo env a := by
  simp [mainRun, hpat, hHh, hmode]

/-- Lines printed to stdout, read off a trace in order. -/
def outLines : List Event → List String
  | [] => []
  | Event.outLine s :: evs => s :: outLines evs
  | _ :: evs => outLines evs

theorem predEvalNums_map_outLine {α : Type} (q : String) (f : α → String) :
    ∀ (l : List α), predEvalNums q (l.map (fun x => Event.outLine (f x))) = []
  | [] => rfl
  | x :: l => by simp [predEvalNums, predEvalNums_map_outLine q f l]

theorem predEvalNums_aggOut (q : String) (a : Args) (t : Tally) :
    predEvalNums q (aggOut a t) = [] := by
  unfold aggOut
  rw [predEvalNums_append, predEvalNums_append]
  by_cases h1 : a.print_matching_files <;>
    by_cases h2 : a.print_non_matching_files <;>
      by_cases h3 : a.count_hits_per_file <;>
        simp [h1, h2, h3, predEvalNums, predEvalNums_map_outLine]

/-! Concrete environments and argument vectors used as witnesses.
Argument fields in order: pattern, files, invert_match,
force_print_filename, force_no_print_filename, print_line_number,
print_matching_files, print_non_matching_files, count_hits_per_file. -/

def envW : Env :=
  ⟨true, fun l => l == "hit", ["hit"],
   fun fp => if fp = "a.txt" then some ["hit", "miss"]
             else if fp = "b.txt" then some ["hit"]
             else if fp = "c.txt" then some ["miss"]
             else none⟩

def envPatBad : Env := ⟨false, fun _ => true, [], fun _ => none⟩

def argsPlain : Args := ⟨"p", ["a.txt"], false, false, false, false, false, false, false⟩

def argsHh : Args := ⟨"p", ["a.txt"], false, true, true, false, false, false, false⟩

def argsOpen : Args := ⟨"p", ["nope.txt"], false, false, false, false, false, false, false⟩

def argsCountBA : Args := ⟨"p", ["b.txt", "a.txt"], false, false, false, false, false, false, true⟩

def argsCountAB : Args := ⟨"p", ["a.txt", "b.txt"], false, false, false, false, false, false, true⟩

/-- Arguments of a files-with-match (`-l`) run over the given sources. -/
def argsFWM (files : List String) (inv : Bool) : Args :=
  ⟨"p", files, inv, false, false, false, true, false, false⟩

/-- Arguments of a files-without-match (`-L`) run over the given sources. -/
def argsFWOM (files : List String) (inv : Bool) : Args :=
  ⟨"p", files, inv, false, false, false, false, true, false⟩

/-- C6: every `handle_hit` on the `HitPrinter` emits exactly one line whose
content is the enabled fields, in the fixed order name, ordinal, text,
joined by a colon with no separator before the first present field; with
all three switches off the line is empty. -/
theorem hitPrinter_line_is_joined_fields (pf pl ph : Bool) (fp : String) (n : Nat) (hit : String) :
    formatHit pf pl ph fp n hit =
      joinFields ((if pf then [fp] else []) ++ (if pl then [toString n] else []) ++
                  (if ph then [hit] else [])) := by
  cases pf <;> cases pl <;> cases ph <;>
    simp [formatHit, joinFields, String.append_assoc, String.empty_append,
      String.append_empty]

/-- C8: in normal mode the filename field is on iff more than one source
was supplied, except that `-H` forces it on (even for a single source) and
`-h` forces it off (even for several). -/
theorem filename_default_and_overrides (fH fh : Bool) (n : Nat) (h : ¬(fH = true ∧ fh = true)) :
    printFilesFlag fH fh n = true ↔ (fH = true ∨ (1 < n ∧ fh = false)) := by
  cases fH <;> cases fh <;> simp [printFilesFlag] at h ⊢

/-- Witness for C8 at a single source with `-H`: the filename is printed. -/
theorem filename_default_and_overrides_witness :
    printFilesFlag true false 1 = true ↔ (true = true ∨ (1 < 1 ∧ false = false)) :=
  filename_default_and_overrides true false 1 (by simp)

/-- C7: with conflicting options (`-H` with `-h`, or two of `-l`/`-L`/`-c`)
the run aborts at once: the whole observable trace is one error message, so
no source is opened, no handler is notified, and no match or aggregate
output is produced. -/
theorem conflicting_options_abort (env : Env) (a : Args)
    (hconf : (a.force_print_filename && a.force_no_print_filename) = true ∨
             ((a.print_matching_files && a.print_non_matching_files) ||
              (a.print_matching_files && a.count_hits_per_file) ||
              (a.print_non_matching_files && a.count_hits_per_file)) = true) :
    ∃ msg, (mainRun env a).1 = [Event.errorMsg msg] := by
  by_cases hpat : env.patternOk = false
  · exact ⟨"could not parse pattern", by simp [mainRun, hpat]⟩
  · by_cases hH : (a.force_print_filename && a.force_no_print_filename) = true
    · exact ⟨"conflicting command line options: --with-filename and --no-filename (or equivalents)",
        by simp [mainRun, hpat, hH]⟩
    · have hc : ((a.print_matching_files && a.print_non_matching_files) ||
                 (a.print_matching_files && a.count_hits_per_file) ||
                 (a.print_non_matching_files && a.count_hits_per_file)) = true := by
        rcases hconf with h | h
        · exact absurd h hH
        · exact h
      exact ⟨"conflicting command line options: only one of --files-with-match, --files-without-match and --count (or equivalents) may be given",
        by simp [mainRun, hpat, hH, hc]⟩

/-- Witness for C7: `-H` together with `-h` yields a bare error trace. -/
theorem conflicting_options_abort_witness :
    ∃ msg, (mainRun envW argsHh).1 = [Event.errorMsg msg] :=
  conflicting_options_abort envW argsHh (Or.inl rfl)

/-- C2 (against the claim): the three early-`return` error paths of `main`
(pattern-compile failure, conflicting options, source-open failure) all
terminate the process with exit status 0, not the non-zero status the
specification requires; each does print a message. -/
theorem error_paths_exit_zero :
    (mainRun envPatBad argsPlain).2 = 0 ∧
    (mainRun envPatBad argsPlain).1 = [Event.errorMsg "could not parse pattern"] ∧
    (mainRun envW argsHh).2 = 0 ∧
    (mainRun envW argsHh).1 =
      [Event.errorMsg "conflicting command line options: --with-filename and --no-filename (or equivalents)"] ∧
    (mainRun envW argsOpen).2 = 0 ∧
    (mainRun envW argsOpen).1 = [Event.errorMsg "could not open file nope.txt"] := by
  decide

/-- Safety of the `unwrap` in `HitCounter::handle_hit` under the discipline
that every hit on a path is preceded by a `start_new_file` for it. -/
theorem startedOK_safe : ∀ (cs : List HCall) (st : List String) (t : Tally),
    (∀ p ∈ st, (tallyGet t p).isSome = true) → startedOK st cs = true →
    (runCalls cs t).isSome = true
  | [], st, t, _, _ => by simp [runCalls]
  | HCall.start q :: cs, st, t, hst, hok => by
    simp only [startedOK] at hok
    apply startedOK_safe cs (q :: st) (start_new_file t q) ?_ hok
    intro p hp
    by_cases hpq : p = q
    · subst hpq
      rw [start_new_file, tallyGet_insert_self]
      rfl
    · rcases List.mem_cons.mp hp with he | hm
      · exact absurd he hpq
      · rw [start_new_file, tallyGet_insert_ne _ _ _ _ hpq]
        exact hst p hm
  | HCall.hit q :: cs, st, t, hst, hok => by
    simp only [startedOK, Bool.and_eq_true, decide_eq_true_eq] at hok
    obtain ⟨hq, hok2⟩ := hok
    have hg0 := hst q hq
    cases hg : tallyGet t q with
    | none => rw [hg] at hg0; cases hg0
    | some v =>
      simp only [runCalls, handle_hit, hg]
      apply startedOK_safe cs st (tallyInsert t q (v + 1)) ?_ hok2
      intro p hp
      by_cases hpq : p = q
      · subst hpq
        rw [tallyGet_insert_self]
        rfl
      · rw [tallyGet_insert_ne _ _ _ _ hpq]
        exact hst p hp

/-- C10: under the pipeline's discipline (a `start_new_file` for a path
precedes every `handle_hit` for it), the `unwrap` inside
`HitCounter::handle_hit` always succeeds: the run of the call sequence
never reaches the panic branch. -/
theorem handle_hit_unwrap_safe (cs : List HCall) (h : startedOK [] cs = true) :
    (runCalls cs []).isSome = true :=
  startedOK_safe cs [] [] (by simp) h

/-- Witness for C10 on a concrete begun-then-hit sequence. -/
theorem handle_hit_unwrap_safe_witness :
    (runCalls [HCall.start "a", HCall.hit "a", HCall.hit "a"] []).isSome = true :=
  handle_hit_unwrap_safe [HCall.start "a", HCall.hit "a", HCall.hit "a"] (by decide)

/-! Counting behaviour of `HitCounter` over raw call sequences. -/

/-- Number of `handle_hit` calls for a given path in a call sequence. -/
def hitsFor (p : String) : List HCall → Nat
  | [] => 0
  | HCall.hit q :: cs => (if q = p then 1 else 0) + hitsFor p cs
  | _ :: cs => hitsFor p cs

theorem runCalls_append : ∀ (xs ys : List HCall) (t : Tally),
    runCalls (xs ++ ys) t =
      match runCalls xs t with
      | none => none
      | some t1 => runCalls ys t1
  | [], ys, t => rfl
  | HCall.start p :: xs, ys, t => by
    simp only [List.cons_append, runCalls]
    exact runCalls_append xs ys _
  | HCall.hit p :: xs, ys, t => by
    simp only [List.cons_append, runCalls]
    cases handle_hit t p with
    | none => rfl
    | some t1 => exact runCalls_append xs ys t1

theorem runCalls_count : ∀ (cs : List HCall) {t : Tally} {p : String} {v : Nat} {tEnd : Tally},
    tallyGet t p = some v → HCall.start p ∉ cs → runCalls cs t = some tEnd →
    tallyGet tEnd p = some (v + hitsFor p cs)
  | [], t, p, v, tEnd, hv, _, hrun => by
    simp only [runCalls, Option.some.injEq] at hrun
    subst hrun
    simpa [hitsFor] using hv
  | HCall.start q :: cs, t, p, v, tEnd, hv, hns, hrun => by
    have hq : q ≠ p := fun he => hns (by rw [he]; exact List.mem_cons_self _ _)
    simp only [runCalls] at hrun
    have hv1 : tallyGet (start_new_file t q) p = some v := by
      rw [start_new_file, tallyGet_insert_ne _ _ _ _ (Ne.symm hq)]
      exact hv
    have hres := runCalls_count cs hv1 (fun hm => hns (List.mem_cons_of_mem _ hm)) hrun
    simpa [hitsFor] using hres
  | HCall.hit q :: cs, t, p, v, tEnd, hv, hns, hrun => by
    simp only [runCalls] at hrun
    cases hh : handle_hit t q with
    | none => rw [hh] at hrun; cases hrun
    | some t1 =>
      rw [hh] at hrun
      by_cases hqp : q = p
      · subst hqp
        unfold handle_hit at hh
        rw [hv] at hh
        simp only [Option.some.injEq] at hh
        subst hh
        have hres := runCalls_count cs (tallyGet_insert_self t q (v + 1))
          (fun hm => hns (List.mem_cons_of_mem _ hm)) hrun
        rw [hres]
        simp only [hitsFor, eq_self_iff_true, if_true]
        congr 1
        omega
      · have hv1 : tallyGet t1 p = some v := by
          unfold handle_hit at hh
          cases hg : tallyGet t q with
          | none => rw [hg] at hh; cases hh
          | some w =>
            rw [hg] at hh
            simp only [Option.some.injEq] at hh
            subst hh
            rw [tallyGet_insert_ne _ _ _ _ (fun he => hqp he.symm)]
            exact hv
        have hres := runCalls_count cs hv1 (fun hm => hns (List.mem_cons_of_mem _ hm)) hrun
        simpa [hitsFor, hqp] using hres

theorem runCalls_sorted : ∀ (cs : List HCall) {t tEnd : Tally},
    runCalls cs t = some tEnd → tallySorted t → tallySorted tEnd
  | [], t, tEnd, hrun, hs => by
    simp only [runCalls, Option.some.injEq] at hrun
    subst hrun
    exact hs
  | HCall.start q :: cs, t, tEnd, hrun, hs => by
    simp only [runCalls] at hrun
    exact runCalls_sorted cs hrun (tallySorted_insert _ _ hs)
  | HCall.hit q :: cs, t, tEnd, hrun, hs => by
    simp only [runCalls] at hrun
    cases hh : handle_hit t q with
    | none => rw [hh] at hrun; cases hrun
    | some t1 =>
      rw [hh] at hrun
      exact runCalls_sorted cs hrun (handle_hit_sorted hh hs)

/-- C9: a later `start_new_file` for a path already in the tally overwrites
its entry with zero, so after a run whose tail begins the path exactly once
the tally holds a single entry for it, counting only the hits observed
since that most recent begin; hits before it are discarded. -/
theorem restart_resets_count (cs1 cs2 : List HCall) (p : String) (t : Tally)
    (hrun : runCalls (cs1 ++ HCall.start p :: cs2) [] = some t)
    (hno : HCall.start p ∉ cs2) :
    tallyGet t p = some (hitsFor p cs2) ∧ List.count p (t.map Prod.fst) = 1 := by
  have hsplit := runCalls_append cs1 (HCall.start p :: cs2) []
  rw [hrun] at hsplit
  cases h1 : runCalls cs1 [] with
  | none =>
    rw [h1] at hsplit
    cases hsplit
  | some t1 =>
    rw [h1] at hsplit
    have h2 : runCalls cs2 (start_new_file t1 p) = some t := by
      simp only [runCalls] at hsplit
      exact hsplit.symm
    have hget : tallyGet (start_new_file t1 p) p = some 0 := tallyGet_insert_self _ _ _
    have hcount := runCalls_count cs2 hget hno h2
    refine ⟨by simpa using hcount, ?_⟩
    have hs1 : tallySorted t1 := runCalls_sorted cs1 h1 List.Pairwise.nil
    have hsorted : tallySorted t := runCalls_sorted cs2 h2 (tallySorted_insert _ _ hs1)
    have hnd : (t.map Prod.fst).Nodup :=
      List.pairwise_map.mpr (hsorted.imp (fun hxy => strLtB_ne hxy))
    have hmem : p ∈ t.map Prod.fst :=
      List.mem_map_of_mem Prod.fst (tallyGet_mem (by simpa using hcount))
    exact List.count_eq_one_of_mem hnd hmem

/-- Witness for C9: begin x, one hit, begin x again, two hits — the tally
ends with the single entry (x, 2). -/
theorem restart_resets_count_witness :
    tallyGet [("x", 2)] "x" = some (hitsFor "x" [HCall.hit "x", HCall.hit "x"]) ∧
    List.count "x" ([("x", 2)].map Prod.fst) = 1 :=
  restart_resets_count [HCall.start "x", HCall.hit "x"] [HCall.hit "x", HCall.hit "x"] "x"
    [("x", 2)] (by decide) (by decide)

/-! C1: order of the tally enumeration. -/

/-- C1 counterexample: a `-c` run over the sources given as b.txt then
a.txt prints the aggregate lines for a.txt first — ascending key order, not
the first-begun order b.txt, a.txt the claim states. -/
theorem tally_order_counterexample :
    outLines (mainRun envW argsCountBA).1 = ["a.txt:1", "b.txt:1"] ∧
    argsCountBA.files = ["b.txt", "a.txt"] ∧
    ["a.txt:1", "b.txt:1"] ≠ ["b.txt:1", "a.txt:1"] := by
  decide

/-- C1 amended: the tally enumeration read after the run — and with it
every line of aggregate output — is in ascending lexicographic order of
source id (the BTreeMap iteration order), which agrees with first-begun
order only when the sources were supplied in sorted order. -/
theorem tally_enumeration_sorted (cfg : RunCfg) (env : Env) (files : List String)
    (evs : List Event) (t : Tally)
    (h : runFiles cfg env files [] = (evs, RunExit.ok t)) :
    List.Pairwise (fun x y => strLtB x.1 y.1 = true) t :=
  runFiles_sorted cfg env h List.Pairwise.nil

/-- Witness for the amended C1 on a concrete two-source run. -/
theorem tally_enumeration_sorted_witness :
    List.Pairwise (fun x y : String × Nat => strLtB x.1 y.1 = true) [("a.txt", 1), ("b.txt", 1)] :=
  tally_enumeration_sorted (mkCfg envW argsCountBA) envW ["b.txt", "a.txt"]
    [Event.sourceOpened "b.txt", Event.beginSource "b.txt", Event.predEval "b.txt" 1,
     Event.observeEvt "b.txt" 1 "hit", Event.sourceOpened "a.txt", Event.beginSource "a.txt",
     Event.predEval "a.txt" 1, Event.observeEvt "a.txt" 1 "hit", Event.predEval "a.txt" 2]
    [("a.txt", 1), ("b.txt", 1)] (by decide)

/-! C3: correctness of count mode. -/

/-- C3: in count mode the printed count of every source equals the number
of its lines on which the match predicate XOR the invert flag was true, and
the aggregate output is exactly the tally enumeration rendered id:count. -/
theorem count_mode_correct (env : Env) (a : Args)
    (hpat : env.patternOk = true)
    (hHh : (a.force_print_filename && a.force_no_print_filename) = false)
    (hc : a.count_hits_per_file = true)
    (hl : a.print_matching_files = false)
    (hL : a.print_non_matching_files = false)
    (hopen : ∀ fp ∈ normFiles a.files, (readLinesF env fp).isSome = true) :
    ∃ evs t, runFiles (mkCfg env a) env (normFiles a.files) [] = (evs, RunExit.ok t) ∧
      (∀ fp ∈ normFiles a.files,
        tallyGet t fp = some (countHits env.m a.invert_match (linesOf env fp))) ∧
      (mainRun env a).1 = evs ++ t.map (fun pr => Event.outLine (pr.1 ++ ":" ++ toString pr.2)) := by
  have hcu : (mkCfg env a).useCounter = true := by simp [mkCfg, hc]
  obtain ⟨evs, t, hrun, hval, _⟩ :=
    runFiles_counter (mkCfg env a) env hcu (normFiles a.files) [] hopen
  refine ⟨evs, t, hrun, ?_, ?_⟩
  · intro fp hfp
    rw [hval fp hfp]
    simp [expectedCount, mkCfg, hl]
  · have hmode : ((a.print_matching_files && a.print_non_matching_files) ||
                  (a.print_matching_files && a.count_hits_per_file) ||
                  (a.print_non_matching_files && a.count_hits_per_file)) = false := by
      rw [hl, hL]
      simp
    rw [mainRun_go env a hpat hHh hmode]
    unfold mainGo
    rw [hrun]
    simp [aggOut, hl, hL, hc]

/-- Witness for C3 on a two-file count run. -/
theorem count_mode_correct_witness :
    ∃ evs t, runFiles (mkCfg envW argsCountAB) envW (normFiles argsCountAB.files) [] =
        (evs, RunExit.ok t) ∧
      (∀ fp ∈ normFiles argsCountAB.files,
        tallyGet t fp = some (countHits envW.m argsCountAB.invert_match (linesOf envW fp))) ∧
      (mainRun envW argsCountAB).1 =
        evs ++ t.map (fun pr => Event.outLine (pr.1 ++ ":" ++ toString pr.2)) :=
  count_mode_correct envW argsCountAB rfl rfl rfl rfl rfl (by decide)

/-! C5: early termination happens exactly in files-with-match mode. -/

/-- C5: with `-l` the predicate evaluations on a source are exactly lines 1
up to the first (possibly inverted) match, so no later line of that source
is ever tested; in the other three modes they are exactly all of the
source's lines. -/
theorem early_stop_only_in_fwm (env : Env) (a : Args) (fp : String)
    (hpat : env.patternOk = true)
    (hHh : (a.force_print_filename && a.force_no_print_filename) = false)
    (hmode : ((a.print_matching_files && a.print_non_matching_files) ||
              (a.print_matching_files && a.count_hits_per_file) ||
              (a.print_non_matching_files && a.count_hits_per_file)) = false)
    (hopen : ∀ q ∈ normFiles a.files, (readLinesF env q).isSome = true)
    (hnd : (normFiles a.files).Nodup)
    (hfp : fp ∈ normFiles a.files) :
    predEvalNums fp (mainRun env a).1 =
      List.range' 1 (if a.print_matching_files then
                       earlyLen (matchesLine env.m a.invert_match) (linesOf env fp)
                     else (linesOf env fp).length) := by
  obtain ⟨evs, t, hrun⟩ := runFiles_ok (mkCfg env a) env (normFiles a.files) [] hopen
  rw [mainRun_go env a hpat hHh hmode]
  unfold mainGo
  rw [hrun]
  simp only
  rw [predEvalNums_append, predEvalNums_aggOut, List.append_nil]
  exact runFiles_predEvals (mkCfg env a) env hrun hopen hnd fp hfp

/-- Witness for C5: a `-l` run over a.txt evaluates the predicate only on
line 1, where the first match sits. -/
theorem early_stop_only_in_fwm_witness :
    predEvalNums "a.txt" (mainRun envW (argsFWM ["a.txt"] false)).1 =
      List.range' 1 (if (argsFWM ["a.txt"] false).print_matching_files then
                       earlyLen (matchesLine envW.m (argsFWM ["a.txt"] false).invert_match)
                         (linesOf envW "a.txt")
                     else (linesOf envW "a.txt").length) :=
  early_stop_only_in_fwm envW (argsFWM ["a.txt"] false) "a.txt" rfl rfl rfl
    (by decide) (by decide) (by decide)

/-! C4: files-with-match and files-without-match partition the sources. -/

theorem outLine_mem_filter (t : Tally) (hs : tallySorted t) (fp : String) (p : Nat → Bool) :
    Event.outLine fp ∈ (t.filter (fun pr => p pr.2)).map (fun pr => Event.outLine pr.1) ↔
      ∃ c, tallyGet t fp = some c ∧ p c = true := by
  constructor
  · intro hm
    rcases List.mem_map.mp hm with ⟨pr, hpr, heq⟩
    rcases List.mem_filter.mp hpr with ⟨hmem, hp⟩
    have h1 : pr.1 = fp := by injection heq
    refine ⟨pr.2, ?_, hp⟩
    rw [← h1]
    exact mem_tallyGet_of_sorted hs hmem
  · rintro ⟨c, hget, hp⟩
    exact List.mem_map.mpr ⟨(fp, c), List.mem_filter.mpr ⟨tallyGet_mem hget, hp⟩, rfl⟩

theorem countHits_eq_zero (m : String → Bool) (inv : Bool) (ls : List String) :
    countHits m inv ls = 0 ↔ ls.any (matchesLine m inv) = false := by
  unfold countHits
  rw [List.length_eq_zero, List.filter_eq_nil_iff]
  simp [List.any_eq_true]

theorem fwm_output_char (env : Env) (a : Args) (fp : String)
    (hpat : env.patternOk = true)
    (hHh : (a.force_print_filename && a.force_no_print_filename) = false)
    (hl : a.print_matching_files = true)
    (hL : a.print_non_matching_files = false)
    (hc : a.count_hits_per_file = false)
    (hopen : ∀ q ∈ normFiles a.files, (readLinesF env q).isSome = true) :
    Event.outLine fp ∈ (mainRun env a).1 ↔
      (fp ∈ normFiles a.files ∧ (linesOf env fp).any (matchesLine env.m a.invert_match) = true) := by
  have hcu : (mkCfg env a).useCounter = true := by simp [mkCfg, hl]
  have hprinter : (mkCfg env a).printerCfg = none := by simp [mkCfg, hl]
  have hmode : ((a.print_matching_files && a.print_non_matching_files) ||
                (a.print_matching_files && a.count_hits_per_file) ||
                (a.print_non_matching_files && a.count_hits_per_file)) = false := by
    rw [hl, hL, hc]
    simp
  have hexp : ∀ q, expectedCount (mkCfg env a) (linesOf env q) =
      (if (linesOf env q).any (matchesLine env.m a.invert_match) then 1 else 0) := by
    intro q
    simp [expectedCount, mkCfg, hl]
  obtain ⟨evs, t, hrun, hval, hframe⟩ :=
    runFiles_counter (mkCfg env a) env hcu (normFiles a.files) [] hopen
  have hsorted : tallySorted t := runFiles_sorted _ env hrun List.Pairwise.nil
  have hnoOut : ∀ s, Event.outLine s ∉ evs := (runFiles_events _ env hrun).2 hprinter
  have hagg : aggOut a t =
      (t.filter (fun pr => decide (0 < pr.2))).map (fun pr => Event.outLine pr.1) := by
    simp [aggOut, hl, hL, hc]
  rw [mainRun_go env a hpat hHh hmode]
  unfold mainGo
  rw [hrun]
  simp only
  rw [hagg]
  constructor
  · intro hmem
    rcases List.mem_append.mp hmem with hin | hin
    · exact absurd hin (hnoOut fp)
    · rcases (outLine_mem_filter t hsorted fp (fun c => decide (0 < c))).mp hin with ⟨c, hget, hpc⟩
      by_cases hinf : fp ∈ normFiles a.files
      · have he : expectedCount (mkCfg env a) (linesOf env fp) = c := by
          rw [hval fp hinf] at hget
          exact Option.some.inj hget
        rw [hexp fp] at he
        have hcpos : 0 < c := by simpa using hpc
        cases hany : (linesOf env fp).any (matchesLine env.m a.invert_match) with
        | false =>
          exfalso
          rw [hany] at he
          simp at he
          omega
        | true => exact ⟨hinf, rfl⟩
      · exfalso
        rw [hframe fp hinf] at hget
        cases hget
  · rintro ⟨hinf, hany⟩
    apply List.mem_append.mpr
    right
    apply (outLine_mem_filter t hsorted fp (fun c => decide (0 < c))).mpr
    refine ⟨1, ?_, by decide⟩
    rw [hval fp hinf, hexp fp, hany]
    simp

theorem fwom_output_char (env : Env) (a : Args) (fp : String)
    (hpat : env.patternOk = true)
    (hHh : (a.force_print_filename && a.force_no_print_filename) = false)
    (hl : a.print_matching_files = false)
    (hL : a.print_non_matching_files = true)
    (hc : a.count_hits_per_file = false)
    (hopen : ∀ q ∈ normFiles a.files, (readLinesF env q).isSome = true) :
    Event.outLine fp ∈ (mainRun env a).1 ↔
      (fp ∈ normFiles a.files ∧ (linesOf env fp).any (matchesLine env.m a.invert_match) = false) := by
  have hcu : (mkCfg env a).useCounter = true := by simp [mkCfg, hL]
  have hprinter : (mkCfg env a).printerCfg = none := by simp [mkCfg, hL]
  have hmode : ((a.print_matching_files && a.print_non_matching_files) ||
                (a.print_matching_files && a.count_hits_per_file) ||
                (a.print_non_matching_files && a.count_hits_per_file)) = false := by
    rw [hl, hc]
    simp
  have hexp : ∀ q, expectedCount (mkCfg env a) (linesOf env q) =
      countHits env.m a.invert_match (linesOf env q) := by
    intro q
    simp [expectedCount, mkCfg, hl]
  obtain ⟨evs, t, hrun, hval, hframe⟩ :=
    runFiles_counter (mkCfg env a) env hcu (normFiles a.files) [] hopen
  have hsorted : tallySorted t := runFiles_sorted _ env hrun List.Pairwise.nil
  have hnoOut : ∀ s, Event.outLine s ∉ evs := (runFiles_events _ env hrun).2 hprinter
  have hagg : aggOut a t =
      (t.filter (fun pr => decide (pr.2 = 0))).map (fun pr => Event.outLine pr.1) := by
    simp [aggOut, hl, hL, hc]
  rw [mainRun_go env a hpat hHh hmode]
  unfold mainGo
  rw [hrun]
  simp only
  rw [hagg]
  constructor
  · intro hmem
    rcases List.mem_append.mp hmem with hin | hin
    · exact absurd hin (hnoOut fp)
    · rcases (outLine_mem_filter t hsorted fp (fun c => decide (c = 0))).mp hin with ⟨c, hget, hpc⟩
      by_cases hinf : fp ∈ normFiles a.files
      · have he : expectedCount (mkCfg env a) (linesOf env fp) = c := by
          rw [hval fp hinf] at hget
          exact Option.some.inj hget
        rw [hexp fp] at he
        have hc0 : c = 0 := by simpa using hpc
        refine ⟨hinf, ?_⟩
        apply (countHits_eq_zero env.m a.invert_match (linesOf env fp)).mp
        omega
      · exfalso
        rw [hframe fp hinf] at hget
        cases hget
  · rintro ⟨hinf, hany⟩
    apply List.mem_append.mpr
    right
    apply (outLine_mem_filter t hsorted fp (fun c => decide (c = 0))).mpr
    refine ⟨0, ?_, by decide⟩
    rw [hval fp hinf, hexp fp,
      (countHits_eq_zero env.m a.invert_match (linesOf env fp)).mpr hany]

/-- C4: for a fixed source set, a source id is printed by a `-l` run iff
one of its lines matched and by a `-L` run iff none did; no id can appear
in both outputs, and every processed source id appears in one of the two. -/
theorem with_without_match_partition (env : Env) (files : List String) (inv : Bool) (fp : String)
    (hpat : env.patternOk = true)
    (hopen : ∀ q ∈ normFiles files, (readLinesF env q).isSome = true) :
    ((Event.outLine fp ∈ (mainRun env (argsFWM files inv)).1) ↔
      (fp ∈ normFiles files ∧ (linesOf env fp).any (matchesLine env.m inv) = true)) ∧
    ((Event.outLine fp ∈ (mainRun env (argsFWOM files inv)).1) ↔
      (fp ∈ normFiles files ∧ (linesOf env fp).any (matchesLine env.m inv) = false)) ∧
    ¬(Event.outLine fp ∈ (mainRun env (argsFWM files inv)).1 ∧
      Event.outLine fp ∈ (mainRun env (argsFWOM files inv)).1) ∧
    (fp ∈ normFiles files →
      Event.outLine fp ∈ (mainRun env (argsFWM files inv)).1 ∨
      Event.outLine fp ∈ (mainRun env (argsFWOM files inv)).1) := by
  have hA := fwm_output_char env (argsFWM files inv) fp hpat rfl rfl rfl rfl hopen
  have hB := fwom_output_char env (argsFWOM files inv) fp hpat rfl rfl rfl rfl hopen
  simp only [argsFWM, argsFWOM] at hA hB
  refine ⟨hA, hB, ?_, ?_⟩
  · rintro ⟨h1, h2⟩
    have a1 := (hA.mp h1).2
    have a2 := (hB.mp h2).2
    rw [a1] at a2
    cases a2
  · intro hinf
    cases hany : (linesOf env fp).any (matchesLine env.m inv) with
    | false => exact Or.inr (hB.mpr ⟨hinf, hany⟩)
    | true => exact Or.inl (hA.mpr ⟨hinf, hany⟩)

/-- Witness for C4: a.txt (with a match) and c.txt (without) under both
listing modes. -/
theorem with_without_match_partition_witness :
    ((Event.outLine "a.txt" ∈ (mainRun envW (argsFWM ["a.txt", "c.txt"] false)).1) ↔
      ("a.txt" ∈ normFiles ["a.txt", "c.txt"] ∧
       (linesOf envW "a.txt").any (matchesLine envW.m false) = true)) ∧
    ((Event.outLine "a.txt" ∈ (mainRun envW (argsFWOM ["a.txt", "c.txt"] false)).1) ↔
      ("a.txt" ∈ normFiles ["a.txt", "c.txt"] ∧
       (linesOf envW "a.txt").any (matchesLine envW.m false) = false)) ∧
    ¬(Event.outLine "a.txt" ∈ (mainRun envW (argsFWM ["a.txt", "c.txt"] false)).1 ∧
      Event.outLine "a.txt" ∈ (mainRun envW (argsFWOM ["a.txt", "c.txt"] false)).1) ∧
    ("a.txt" ∈ normFiles ["a.txt", "c.txt"] →
      Event.outLine "a.txt" ∈ (mainRun envW (argsFWM ["a.txt", "c.txt"] false)).1 ∨
      Event.outLine "a.txt" ∈ (mainRun envW (argsFWOM ["a.txt", "c.txt"] false)).1) :=
  with_without_match_partition envW ["a.txt", "c.txt"] false "a.txt" rfl (by decide)
